import Mathlib

/-!
Verification of the PDF document-description pipeline (`src/main.py`).

Python strings are modelled as `List Char` (`Str`); the external
collaborators (PyMuPDF, tiktoken, the Azure OpenAI client, the filesystem)
are modelled as oracles: each external call is a function returning
`Except Str _`, where `Except.error` models a raised exception.
-/

/-- A Python string, modelled as its sequence of characters. -/
abbrev Str := List Char

/-- Coerce a Lean string literal to the `Str` model. -/
def str (s : String) : Str := s.data

/-- Decimal rendering of a natural number, as used by Python f-strings. -/
def natStr (n : Nat) : Str := (toString n).data

/-! ## Text cleaning (`clean_text`, src/main.py lines 54-59) -/

/-- Whitespace in the sense of the regex class `\s` (ASCII core). -/
def isSpace (c : Char) : Bool :=
  c = ' ' || c = '\t' || c = '\n' || c = '\x0b' || c = '\x0c' || c = '\r'

/-- The four characters of the literal `http` in the pattern `http\S+`. -/
def httpChars : Str := 'h' :: 't' :: 't' :: 'p' :: []

/-- Does the regex `http\S+` match at the head of `l`?  It does exactly when
`l` starts with the four characters `http` followed by at least one
non-whitespace character. -/
def isUrlAt (l : Str) : Bool :=
  decide (l.take 4 = httpChars) && !isSpace ((l.drop 4).headD ' ')

/-- Drop the maximal non-whitespace run at the head of the list: the part of
a matched URL consumed by the greedy `\S+`. -/
def skipUrl : Str → Str
  | [] => []
  | c :: cs => if isSpace c then c :: cs else skipUrl cs

/-- `re.sub(r'http\S+', '', text)`: scan left to right; at each position, if
`http\S+` matches there, delete the match (the four letters, the first
non-space character and the rest of the non-space run) and continue after
it, otherwise keep the character and continue. -/
def removeUrls : Str → Str
  | [] => []
  | c :: cs =>
    if isUrlAt (c :: cs) then removeUrls (skipUrl (cs.drop 3))
    else c :: removeUrls cs
termination_by l => l.length
decreasing_by
  · have h1 : ∀ m : Str, (skipUrl m).length ≤ m.length := by
      intro m
      induction m with
      | nil => simp [skipUrl]
      | cons d ds ih =>
        simp only [skipUrl]
        split
        · exact Nat.le_refl _
        · exact Nat.le_trans ih (Nat.le_succ _)
    have h2 : (cs.drop 3).length = cs.length - 3 := List.length_drop 3 cs
    have h3 := h1 (cs.drop 3)
    simp only [List.length_cons]
    omega
  · simp only [List.length_cons]
    omega

/-- `re.sub(r'\s+', ' ', text)`, as a left-to-right scan.  The flag records
whether the previous character was whitespace (in which case this
whitespace character belongs to a run that already emitted its single
space). -/
def collapseWsAux : Bool → Str → Str
  | _, [] => []
  | afterWs, c :: cs =>
    if isSpace c then
      if afterWs then collapseWsAux true cs else ' ' :: collapseWsAux true cs
    else c :: collapseWsAux false cs

/-- `re.sub(r'\s+', ' ', text)`: every maximal whitespace run becomes a
single space. -/
def collapseWs (l : Str) : Str := collapseWsAux false l

/-- `clean_text` (src/main.py lines 54-59): remove URLs, then collapse
whitespace runs. -/
def clean_text (text : Str) : Str := collapseWs (removeUrls text)

/-! ## Token chunking (`split_text_into_chunks`, src/main.py lines 67-74) -/

/-- The token windows produced by the loop
`for i in range(0, len(tokens), max_tokens): tokens[i:i + max_tokens]`.
`List.range' 0 k step` is Python's `range(0, len(tokens), step)` with
`k = ceil(len(tokens) / step)` elements. -/
def split_tokens (tokens : List Nat) (maxTokens : Nat) : List (List Nat) :=
  (List.range' 0 ((tokens.length + maxTokens - 1) / maxTokens) maxTokens).map
    (fun i => (tokens.drop i).take maxTokens)

/-- `split_text_into_chunks(text, max_tokens)` (src/main.py lines 67-74):
encode the whole text once, slice the token sequence into windows of
`max_tokens`, decode each window.  The tokenizer is the external
collaborator `tiktoken`, passed as the pair `enc`/`dec`. -/
def split_text_into_chunks (enc : Str → List Nat) (dec : List Nat → Str)
    (text : Str) (maxTokens : Nat) : List Str :=
  (split_tokens (enc text) maxTokens).map dec

/-- BPE decoding expands each token id to its fixed character sequence and
concatenates; `decodeTok tok` is `enc.decode` for the token table `tok`.
Modelled from the spec: decoding is per-token concatenation (the round
trip is stated "modulo tokenizer normalization"). -/
def decodeTok (tok : Nat → Str) (ts : List Nat) : Str := (ts.map tok).flatten

/-! ## The external-call environment -/

/-- Raw bytes and encoding extension returned by `doc.extract_image`. -/
structure BaseImage where
  image : List Nat
  ext : Str
deriving DecidableEq

/-- One entry of the per-page image list after the first loop
(src/main.py lines 120-130). -/
structure PageImgData where
  xref : Nat
  image : List Nat
  ext : Str
deriving DecidableEq

/-- One item of `page.get_image_info()`: optionally an `xref` key, and the
top coordinate `y0` of its bounding box. -/
structure InfoItem where
  xrefOpt : Option Nat
  y0 : Int
deriving DecidableEq

/-- A page: its embedded image references (`page.get_images`) and its
image-placement metadata (`page.get_image_info`). -/
structure Page where
  images : List Nat
  info : List InfoItem

/-- A document: its pages, plus the `doc.extract_image` primitive, whose
`Except.error` models a raised exception and whose `Option.none` models a
falsy result. -/
structure Doc where
  pages : List Page
  extractImage : Nat → Except Str (Option BaseImage)

/-- The other external effects: writing an image file to disk, reading it
back, and one chat-completions call keyed by the user prompt.
`Except.error` models a raised exception. -/
structure Env where
  saveResult : Str → Except Str Unit
  readResult : Str → Except Str (List Nat)
  apiResult : Str → Except Str Str

/-- An entry of `temp_image_info` (src/main.py lines 153-160). -/
structure TempInfo where
  image_name : Str
  description : Str
  page : Nat
  rect : Option Int
  y_pos : Int
deriving DecidableEq

/-- An entry of `final_image_info` (src/main.py lines 174-180). -/
structure FinalInfo where
  image_name : Str
  description : Str
deriving DecidableEq

/-! ## Prompts and model calls -/

/-- Part of `tutorial_prompt_template` before the placeholder. -/
def tutorialPromptPre : Str := str "\nVocê é um especialista em sistemas de gestão que cria tutoriais detalhados. Vou fornecer um contexto acumulado de uma funcionalidade em um sistema de gerenciamento e, com base nisso, gostaria que você escrevesse ou atualizasse um tutorial exaustivo passo a passo, semelhante ao exemplo que descreve a aprovação de inconsistências no sistema Exati. O tutorial deve seguir a mesma estrutura, com os seguintes pontos:\n\n    1. Fluxo de navegação no sistema\n    2. Passos detalhados sobre a configuração da nova funcionalidade\n    3. Exemplos de interações visuais ou botões a serem clicados\n    4. Opções de notificação ou personalização\n    5. Definição de prioridades e confirmação final\n    6. Outras funcionalidades ou opções relacionadas\n\nAqui está o contexto acumulado sobre o que o tutorial deve abordar:\n"

/-- Part of `tutorial_prompt_template` after the placeholder. -/
def tutorialPromptPost : Str := str "\n\nPor favor, atualize ou crie o tutorial de forma clara e coesa, seguindo a mesma abordagem direta usada no exemplo do sistema GUIA da Exati. Desconsidere os urls presentes no documento.\n"

/-- `tutorial_prompt_template.format(contexto_acumulado=ctx)`. -/
def tutorial_prompt (ctx : Str) : Str := tutorialPromptPre ++ ctx ++ tutorialPromptPost

/-- Part of `image_description_prompt_template` before the placeholder. -/
def imagePromptPre : Str := str "\nVocê é um assistente de IA que descreve imagens em detalhes, considerando o contexto acumulado do tutorial. A imagem contém texto em português. Use o contexto fornecido para gerar uma descrição precisa e relevante.\n\nContexto Acumulado:\n"

/-- Part of `image_description_prompt_template` after the placeholder. -/
def imagePromptPost : Str := str "\n\nDescrição da Imagem:\n"

/-- The user message built in `get_image_description`
(src/main.py lines 193-195): the formatted template followed by a Markdown
reference to the image path. -/
def imagePrompt (path ctx : Str) : Str :=
  imagePromptPre ++ ctx ++ imagePromptPost ++ (str "![Imagem](") ++ path ++ (str ")")

/-- Sentinel returned when reading the image file raises
(src/main.py line 191). -/
def readSentinel : Str := str "Descrição não disponível devido a erro na leitura da imagem."

/-- Sentinel returned when the chat-completions call raises
(src/main.py line 208). -/
def apiSentinel : Str := str "Descrição não disponível devido a erro na chamada da API."

/-- `get_image_description` (src/main.py lines 185-208): read the image
back from disk (a failure yields the read sentinel), call the model with
the context-bearing prompt (a failure yields the API sentinel), otherwise
return the model reply verbatim.  Total: no error escapes. -/
def get_image_description (env : Env) (path ctx : Str) : Str :=
  match env.readResult path with
  | .error _ => readSentinel
  | .ok _ =>
    match env.apiResult (imagePrompt path ctx) with
    | .error _ => apiSentinel
    | .ok s => s

/-- `generate_or_update_tutorial` (src/main.py lines 77-90): call the model
on the formatted tutorial prompt; on failure log and return the empty
string. -/
def generate_or_update_tutorial (env : Env) (ctx : Str) : Str :=
  match env.apiResult (tutorial_prompt ctx) with
  | .error _ => []
  | .ok s => s

/-! ## Image extraction (`extract_images_from_pdf`, src/main.py lines 105-182) -/

/-- `os.path.join` for a folder and a relative file name. -/
def os_path_join (a b : Str) : Str := a ++ (str "/") ++ b

/-- `f"image_{page_num + 1}_{img_index + 1}.{ext}"`
(src/main.py line 135). -/
def imageName (pageNum imgIndex : Nat) (ext : Str) : Str :=
  (str "image_") ++ natStr (pageNum + 1) ++ (str "_") ++ natStr (imgIndex + 1)
    ++ (str ".") ++ ext

/-- The loop over `page.get_image_info()` (src/main.py lines 143-147):
the first item carrying an `xref` key equal to the image's xref wins, and
its bounding box's `y0` is kept; otherwise no rect is found. -/
def findRect (info : List InfoItem) (xref : Nat) : Option Int :=
  match info with
  | [] => none
  | item :: rest =>
    match item.xrefOpt with
    | some x => if x = xref then some item.y0 else findRect rest xref
    | none => findRect rest xref

/-- The first loop over `page.get_images(full=True)`
(src/main.py lines 120-130): extract each xref's raw image; an exception
from `doc.extract_image` propagates, a falsy result is skipped, otherwise
the bytes and extension are collected in order. -/
def collectPageImages (doc : Doc) : List Nat → Except Str (List PageImgData)
  | [] => .ok []
  | x :: xs =>
    match doc.extractImage x with
    | .error e => .error e
    | .ok none => collectPageImages doc xs
    | .ok (some b) =>
      match collectPageImages doc xs with
      | .error e => .error e
      | .ok rest => .ok ({ xref := x, image := b.image, ext := b.ext } :: rest)

/-- The body of the `try` block of the second loop
(src/main.py lines 134-160) for one image: build the name and path, save
the file (the modelled failure point of the block — on an exception the
`except` clause skips the image, giving `none`), resolve the rect, get the
description, and assemble the `temp_image_info` entry with
`_y_pos = rect.y0 if rect else 0`. -/
def processImage (env : Env) (folder : Str) (p : Page) (pageNum imgIndex : Nat)
    (d : PageImgData) (ctx : Str) : Option TempInfo :=
  match env.saveResult (os_path_join folder (imageName pageNum imgIndex d.ext)) with
  | .error _ => none
  | .ok _ =>
    some { image_name := imageName pageNum imgIndex d.ext,
           description :=
             get_image_description env
               (os_path_join folder (imageName pageNum imgIndex d.ext)) ctx,
           page := pageNum, rect := findRect p.info d.xref,
           y_pos := (findRect p.info d.xref).getD 0 }

/-- The second loop (src/main.py lines 133-166): `enumerate(page_images)`
with the per-image `try`/`except` that skips a failing image and
continues. -/
def processPageImages (env : Env) (folder : Str) (p : Page) (pageNum : Nat)
    (ctx : Str) : Nat → List PageImgData → List TempInfo
  | _, [] => []
  | i, d :: ds =>
    match processImage env folder p pageNum i d ctx with
    | some t => t :: processPageImages env folder p pageNum ctx (i + 1) ds
    | none => processPageImages env folder p pageNum ctx (i + 1) ds

/-- The page loop (src/main.py lines 116-166), accumulating
`temp_image_info` in page order; an exception from `collectPageImages`
propagates out of the whole extraction. -/
def extractPages (env : Env) (doc : Doc) (folder ctx : Str) :
    Nat → List Page → Except Str (List TempInfo)
  | _, [] => .ok []
  | n, p :: ps =>
    match collectPageImages doc p.images with
    | .error e => .error e
    | .ok imgs =>
      match extractPages env doc folder ctx (n + 1) ps with
      | .error e => .error e
      | .ok rest => .ok (processPageImages env folder p n ctx 0 imgs ++ rest)

/-- The sort key comparison of
`temp_image_info.sort(key=lambda x: (x["_page"], x["_y_pos"]))`
(src/main.py line 171): lexicographic on (page, y position). -/
def lexLe (a b : TempInfo) : Prop :=
  a.page < b.page ∨ (a.page = b.page ∧ a.y_pos ≤ b.y_pos)

instance : DecidableRel lexLe := fun a b => by
  unfold lexLe
  infer_instance

instance : IsTotal TempInfo lexLe :=
  ⟨fun a b => by unfold lexLe; omega⟩

instance : IsTrans TempInfo lexLe :=
  ⟨fun a b c hab hbc => by unfold lexLe at hab hbc ⊢; omega⟩

/-- `temp_image_info` after the stable sort by (page, y position)
(src/main.py line 171).  Python's `list.sort` is a stable sort; a stable
sort's output is determined by the comparison, so it is modelled by stable
insertion sort. -/
def extractTemp (env : Env) (doc : Doc) (folder ctx : Str) :
    Except Str (List TempInfo) :=
  match extractPages env doc folder ctx 0 doc.pages with
  | .error e => .error e
  | .ok tmp => .ok (List.insertionSort lexLe tmp)

/-- Projection building `final_image_info` entries
(src/main.py lines 174-180). -/
def finalOf (t : TempInfo) : FinalInfo :=
  { image_name := t.image_name, description := t.description }

/-- `extract_images_from_pdf` (src/main.py lines 105-182): collect, sort,
and keep only name and description. -/
def extract_images_from_pdf (env : Env) (doc : Doc) (folder ctx : Str) :
    Except Str (List FinalInfo) :=
  match extractTemp env doc folder ctx with
  | .error e => .error e
  | .ok tmp => .ok (tmp.map finalOf)

/-! ## The orchestration loop in `main` (src/main.py lines 271-279) -/

/-- The per-chunk loop of `main`: `contexto_acumulado += "\n" + chunk`,
then `tutorial = generate_or_update_tutorial(contexto_acumulado)` and
`if tutorial: tutorial_text = tutorial`.  State is the pair
(contexto_acumulado, tutorial_text). -/
def chunkLoop (env : Env) (ctx tut : Str) : List Str → Str × Str
  | [] => (ctx, tut)
  | c :: cs =>
    let ctx' := ctx ++ (str "\n") ++ c
    let t := generate_or_update_tutorial env ctx'
    chunkLoop env ctx' (if t = [] then tut else t) cs

/-- The model outputs of the successive iterations of the loop, in order:
iteration `k` calls the model on the context accumulated through chunk
`k`. -/
def tutorialOutputs (env : Env) : Str → List Str → List Str
  | _, [] => []
  | ctx, c :: cs =>
    let ctx' := ctx ++ (str "\n") ++ c
    generate_or_update_tutorial env ctx' :: tutorialOutputs env ctx' cs

/-- Plain concatenation of a list of strings (spec-side notion used to
state the accumulated-context claims). -/
def concatAll (l : List Str) : Str := l.foldr (fun a b => a ++ b) []

/-! ## Concrete documents and environments for examples -/

/-- Environment in which every external call succeeds; the model always
answers `d`. -/
def okEnv : Env :=
  { saveResult := fun _ => .ok ()
    readResult := fun _ => .ok [0]
    apiResult := fun _ => .ok (str "d") }

/-- Environment in which every chat-completions call raises. -/
def apiFailEnv : Env :=
  { okEnv with apiResult := fun _ => .error (str "boom") }

/-- A document with one page holding two images: xref 1 placed at
y = 100 and xref 2 placed at y = 50. -/
def exDoc : Doc :=
  { pages := [{ images := [1, 2],
                info := [{ xrefOpt := some 1, y0 := 100 },
                         { xrefOpt := some 2, y0 := 50 }] }]
    extractImage := fun x => .ok (some { image := [x], ext := str "png" }) }

/-- A document with one page holding a single image (xref 7 at y = 3). -/
def oneImgDoc : Doc :=
  { pages := [{ images := [7], info := [{ xrefOpt := some 7, y0 := 3 }] }]
    extractImage := fun x => .ok (some { image := [x], ext := str "png" }) }

/-- A document whose first image raises inside `doc.extract_image` while
its second image is fine. -/
def raiseDoc : Doc :=
  { pages := [{ images := [1, 2], info := [{ xrefOpt := some 2, y0 := 5 }] }]
    extractImage := fun x =>
      if x = 1 then .error (str "bad xref")
      else .ok (some { image := [x], ext := str "png" }) }

/-- Environment in which only saving `image_1_1.png` fails. -/
def saveFailEnv : Env :=
  { okEnv with saveResult := fun p =>
      if p = str "imagens_extraidas/image_1_1.png" then .error (str "disk full")
      else (.ok ()) }

/-- Environment whose model answers `A` to the tutorial request on the
context holding only the first chunk `c1` and answers the empty string to
every other request (every call succeeds). -/
def emptyAnswerEnv : Env :=
  { okEnv with apiResult := fun p =>
      if p = tutorial_prompt (([] : Str) ++ (str "\n") ++ (str "c1"))
      then (.ok (str "A")) else (.ok ([])) }

deriving instance DecidableEq for Except

/-! ## Analysis predicates -/

/-- The string contains an occurrence of the pattern `http\S+`: somewhere
the four characters `http` are followed by a non-whitespace character. -/
inductive HasUrl : Str → Prop where
  | here (c : Char) (cs : Str) (h : isSpace c = false) :
      HasUrl ('h' :: 't' :: 't' :: 'p' :: c :: cs)
  | there (c : Char) (cs : Str) (h : HasUrl cs) : HasUrl (c :: cs)

/-- Whitespace-normal form scanner: every whitespace character is a plain
space and no whitespace character follows another.  The flag records
whether the previous character was whitespace. -/
def wsOk : Bool → Str → Bool
  | _, [] => true
  | afterWs, c :: cs =>
    if isSpace c then (decide (c = ' ') && !afterWs) && wsOk true cs
    else wsOk false cs

/-! # Theorems

## URL removal -/

theorem skipUrl_length_le (l : Str) : (skipUrl l).length ≤ l.length := by
  induction l with
  | nil => simp [skipUrl]
  | cons c cs ih =>
    simp only [skipUrl]
    split
    · exact Nat.le_refl _
    · exact Nat.le_trans ih (Nat.le_succ _)

theorem skipUrl_shape (l : Str) :
    skipUrl l = [] ∨ ∃ d ds, skipUrl l = d :: ds ∧ isSpace d = true := by
  induction l with
  | nil => exact Or.inl rfl
  | cons c cs ih =>
    simp only [skipUrl]
    split
    · exact Or.inr ⟨c, cs, rfl, by assumption⟩
    · exact ih

theorem removeUrls_nil : removeUrls [] = [] := by
  rw [removeUrls]

theorem removeUrls_cons (c : Char) (cs : Str) :
    removeUrls (c :: cs) =
      if isUrlAt (c :: cs) then removeUrls (skipUrl (cs.drop 3))
      else c :: removeUrls cs := by
  rw [removeUrls]

theorem isUrlAt_iff (l : Str) :
    isUrlAt l = true ↔
      ∃ c cs, l = 'h' :: 't' :: 't' :: 'p' :: c :: cs ∧ isSpace c = false := by
  constructor
  · intro h
    unfold isUrlAt at h
    rw [Bool.and_eq_true, decide_eq_true_eq] at h
    obtain ⟨htake, hsp⟩ := h
    match l, htake with
    | a :: b :: c :: d :: rest, htake =>
      simp [httpChars, List.take] at htake
      obtain ⟨rfl, rfl, rfl, rfl⟩ := htake
      match rest, hsp with
      | [], hsp => simp [isSpace] at hsp
      | e :: rest2, hsp =>
        simp at hsp
        exact ⟨e, rest2, rfl, hsp⟩
  · rintro ⟨c, cs, rfl, hc⟩
    unfold isUrlAt
    simp [httpChars, List.take, hc]

theorem isUrlAt_eq_false_of_head {c : Char} {cs : Str} (h : c ≠ 'h') :
    isUrlAt (c :: cs) = false := by
  by_contra hh
  rw [Bool.not_eq_false] at hh
  rcases (isUrlAt_iff _).mp hh with ⟨c', cs', heq, _⟩
  injection heq with h1 _
  exact h h1

theorem hu_inv {l : Str} (h : HasUrl l) :
    (∃ c cs, l = 'h' :: 't' :: 't' :: 'p' :: c :: cs ∧ isSpace c = false) ∨
      (∃ c cs, l = c :: cs ∧ HasUrl cs) := by
  cases h with
  | here c cs hc => exact Or.inl ⟨c, cs, rfl, hc⟩
  | there c cs hcs => exact Or.inr ⟨c, cs, rfl, hcs⟩

theorem not_hasUrl_nil : ¬ HasUrl ([] : Str) := by
  intro h
  rcases hu_inv h with ⟨c, cs, heq, _⟩ | ⟨c, cs, heq, _⟩ <;> exact absurd heq (by simp)

theorem not_hasUrl_cons {c : Char} {cs : Str} (h : ¬ HasUrl (c :: cs)) :
    ¬ HasUrl cs :=
  fun hc => h (HasUrl.there c cs hc)

theorem removeUrls_head :
    ∀ l d Y, removeUrls l = d :: Y → isSpace d = true ∨ l.head? = some d := by
  have key : ∀ n (l : Str), l.length ≤ n → ∀ d Y,
      removeUrls l = d :: Y → isSpace d = true ∨ l.head? = some d := by
    intro n
    induction n with
    | zero =>
      intro l hl d Y h
      have hnil : l = [] := List.eq_nil_of_length_eq_zero (Nat.le_zero.mp hl)
      subst hnil
      rw [removeUrls_nil] at h
      cases h
    | succ n ih =>
      intro l hl d Y h
      cases l with
      | nil =>
        rw [removeUrls_nil] at h
        cases h
      | cons c cs =>
        rw [removeUrls_cons] at h
        split at h
        · have hlen : (skipUrl (cs.drop 3)).length ≤ n := by
            have h1 := skipUrl_length_le (cs.drop 3)
            have h2 : (cs.drop 3).length = cs.length - 3 := List.length_drop 3 cs
            simp only [List.length_cons] at hl
            omega
          rcases ih _ hlen d Y h with hsp | hhead
          · exact Or.inl hsp
          · rcases skipUrl_shape (cs.drop 3) with hnil | ⟨e, es, heq, hsp⟩
            · rw [hnil] at hhead
              simp at hhead
            · rw [heq] at hhead
              simp at hhead
              subst hhead
              exact Or.inl hsp
        · injection h with h1 h2
          subst h1
          exact Or.inr rfl
  intro l
  exact key l.length l (Nat.le_refl _)

theorem removeUrls_cons_chase {x : Char} {cs X : Str}
    (hx : isSpace x = false) (hxh : x ≠ 'h') (h : removeUrls cs = x :: X) :
    ∃ cs1, cs = x :: cs1 ∧ removeUrls cs1 = X := by
  rcases removeUrls_head cs x X h with hsp | hhead
  · rw [hsp] at hx
    cases hx
  · rcases cs with _ | ⟨e, cs1⟩
    · simp at hhead
    · simp at hhead
      subst hhead
      refine ⟨cs1, rfl, ?_⟩
      rw [removeUrls_cons, isUrlAt_eq_false_of_head hxh] at h
      simp at h
      exact h

theorem not_hasUrl_removeUrls (l : Str) : ¬ HasUrl (removeUrls l) := by
  have key : ∀ n (l : Str), l.length ≤ n → ¬ HasUrl (removeUrls l) := by
    intro n
    induction n with
    | zero =>
      intro l hl
      have hnil : l = [] := List.eq_nil_of_length_eq_zero (Nat.le_zero.mp hl)
      subst hnil
      rw [removeUrls_nil]
      exact not_hasUrl_nil
    | succ n ih =>
      intro l hl
      cases l with
      | nil =>
        rw [removeUrls_nil]
        exact not_hasUrl_nil
      | cons c cs =>
        rw [removeUrls_cons]
        split
        · have hlen : (skipUrl (cs.drop 3)).length ≤ n := by
            have h1 := skipUrl_length_le (cs.drop 3)
            have h2 : (cs.drop 3).length = cs.length - 3 := List.length_drop 3 cs
            simp only [List.length_cons] at hl
            omega
          exact ih _ hlen
        · rename_i hurl
          have hcs : cs.length ≤ n := by
            simp only [List.length_cons] at hl
            omega
          intro hcontra
          rcases hu_inv hcontra with ⟨c', cs', heq, hc'⟩ | ⟨c'', cs'', heq, htail⟩
          · -- c :: removeUrls cs = 'h' :: 't' :: 't' :: 'p' :: c' :: cs'
            injection heq with h1 h2
            subst h1
            -- h2 : removeUrls cs = 't' :: ('t' :: 'p' :: c' :: cs')
            obtain ⟨cs1, rfl, h3⟩ :=
              removeUrls_cons_chase (by decide) (by decide) h2
            obtain ⟨cs2, rfl, h4⟩ :=
              removeUrls_cons_chase (x := 't') (by decide) (by decide) h3
            obtain ⟨cs3, rfl, h5⟩ :=
              removeUrls_cons_chase (x := 'p') (by decide) (by decide) h4
            -- now cs = 't' :: 't' :: 'p' :: cs3 and removeUrls cs3 = c' :: cs'
            cases cs3 with
            | nil =>
              rw [removeUrls_nil] at h5
              cases h5
            | cons e es =>
              have hesp : isSpace e = true := by
                by_contra hne
                rw [Bool.not_eq_true] at hne
                have : isUrlAt ('h' :: 't' :: 't' :: 'p' :: e :: es) = true :=
                  (isUrlAt_iff _).mpr ⟨e, es, rfl, hne⟩
                rw [this] at hurl
                simp at hurl
              rcases removeUrls_head _ _ _ h5 with hsp' | hhead'
              · rw [hsp'] at hc'
                cases hc'
              · simp at hhead'
                subst hhead'
                rw [hesp] at hc'
                cases hc'
          · -- the tail `removeUrls cs` has a URL: contradict the IH
            injection heq with h1 h2
            rw [← h2] at htail
            exact ih _ hcs htail
  intro h
  exact key l.length l (Nat.le_refl _) h

theorem removeUrls_eq_self {l : Str} (h : ¬ HasUrl l) : removeUrls l = l := by
  have key : ∀ n (l : Str), l.length ≤ n → ¬ HasUrl l → removeUrls l = l := by
    intro n
    induction n with
    | zero =>
      intro l hl _
      have hnil : l = [] := List.eq_nil_of_length_eq_zero (Nat.le_zero.mp hl)
      subst hnil
      exact removeUrls_nil
    | succ n ih =>
      intro l hl hu
      cases l with
      | nil => exact removeUrls_nil
      | cons c cs =>
        have hfalse : isUrlAt (c :: cs) = false := by
          by_contra hh
          rw [Bool.not_eq_false] at hh
          rcases (isUrlAt_iff _).mp hh with ⟨c', cs', heq, hc'⟩
          rw [heq] at hu
          exact hu (HasUrl.here c' cs' hc')
        rw [removeUrls_cons, hfalse]
        simp only [Bool.false_eq_true, if_false, List.cons.injEq, true_and]
        exact ih cs (by simp only [List.length_cons] at hl; omega) (not_hasUrl_cons hu)
  exact key l.length l (Nat.le_refl _) h

theorem hasUrl_iff_parts (l : Str) :
    HasUrl l ↔
      ∃ a c d, l = a ++ ('h' :: 't' :: 't' :: 'p' :: c :: d) ∧ isSpace c = false := by
  constructor
  · intro h
    induction h with
    | here c cs hc => exact ⟨[], c, cs, rfl, hc⟩
    | there c cs hcs ih =>
      obtain ⟨a, c', d, heq, hc'⟩ := ih
      exact ⟨c :: a, c', d, by rw [heq]; rfl, hc'⟩
  · rintro ⟨a, c, d, rfl, hc⟩
    induction a with
    | nil => exact HasUrl.here c d hc
    | cons x xs ih => exact HasUrl.there _ _ ih

/-! ## Whitespace collapsing -/

theorem collapseWsAux_nil (b : Bool) : collapseWsAux b [] = [] := rfl

theorem collapseWsAux_cons (b : Bool) (c : Char) (cs : Str) :
    collapseWsAux b (c :: cs) =
      if isSpace c then
        if b then collapseWsAux true cs else ' ' :: collapseWsAux true cs
      else c :: collapseWsAux false cs := rfl

theorem nonspace_prefix_collapse :
    ∀ (cs u : Str), (∀ x ∈ u, isSpace x = false) →
      u <+: collapseWsAux false cs → u <+: cs := by
  intro cs
  induction cs with
  | nil =>
    intro u hu hp
    rw [collapseWsAux_nil] at hp
    rw [List.prefix_nil] at hp
    simp [hp]
  | cons e cs' ih =>
    intro u hu hp
    rcases u with _ | ⟨d, u'⟩
    · exact List.nil_prefix
    · by_cases hsp : isSpace e = true
      · rw [collapseWsAux_cons] at hp
        rw [hsp] at hp
        simp only [if_true, if_false, Bool.false_eq_true] at hp
        rcases List.cons_prefix_cons.mp hp with ⟨rfl, _⟩
        have hd := hu ' ' (by simp)
        simp [isSpace] at hd
      · rw [collapseWsAux_cons] at hp
        rw [Bool.not_eq_true] at hsp
        rw [hsp] at hp
        simp only [Bool.false_eq_true, if_false] at hp
        rcases List.cons_prefix_cons.mp hp with ⟨rfl, hp'⟩
        have := ih u' (fun x hx => hu x (by simp [hx])) hp'
        exact List.cons_prefix_cons.mpr ⟨rfl, this⟩

theorem nonspace_infix_collapse :
    ∀ (l : Str) (b : Bool) (u : Str), u ≠ [] →
      (∀ x ∈ u, isSpace x = false) →
      u <:+: collapseWsAux b l → u <:+: l := by
  intro l
  induction l with
  | nil =>
    intro b u hne hu hi
    rw [collapseWsAux_nil] at hi
    exact absurd (List.sublist_nil.mp hi.sublist) hne
  | cons e l' ih =>
    intro b u hne hu hi
    by_cases hsp : isSpace e = true
    · rw [collapseWsAux_cons, hsp] at hi
      simp only [if_true] at hi
      cases b with
      | true => exact List.infix_cons (ih true u hne hu hi)
      | false =>
        simp only [Bool.false_eq_true, if_false] at hi
        rcases List.infix_cons_iff.mp hi with hp | hi'
        · rcases u with _ | ⟨d, u'⟩
          · exact absurd rfl hne
          · rcases List.cons_prefix_cons.mp hp with ⟨rfl, _⟩
            have hd := hu ' ' (by simp)
            simp [isSpace] at hd
        · exact List.infix_cons (ih true u hne hu hi')
    · rw [collapseWsAux_cons] at hi
      rw [Bool.not_eq_true] at hsp
      rw [hsp] at hi
      simp only [Bool.false_eq_true, if_false] at hi
      rcases List.infix_cons_iff.mp hi with hp | hi'
      · rcases u with _ | ⟨d, u'⟩
        · exact absurd rfl hne
        · rcases List.cons_prefix_cons.mp hp with ⟨rfl, hp'⟩
          have := nonspace_prefix_collapse l' u' (fun x hx => hu x (by simp [hx])) hp'
          exact ((List.cons_prefix_cons.mpr ⟨rfl, this⟩) : d :: u' <+: d :: l').isInfix
      · exact List.infix_cons (ih false u hne hu hi')

theorem not_hasUrl_collapseWs {l : Str} (h : ¬ HasUrl l) :
    ¬ HasUrl (collapseWs l) := by
  intro hc
  rcases (hasUrl_iff_parts _).mp hc with ⟨a, c, d, heq, hcns⟩
  have hinf : ('h' :: 't' :: 't' :: 'p' :: c :: []) <:+: collapseWs l :=
    ⟨a, d, by rw [heq]; simp⟩
  have huns : ∀ x ∈ ('h' :: 't' :: 't' :: 'p' :: c :: []), isSpace x = false := by
    intro x hx
    simp only [List.mem_cons, List.not_mem_nil, or_false] at hx
    rcases hx with rfl | rfl | rfl | rfl | rfl
    · decide
    · decide
    · decide
    · decide
    · exact hcns
  have h5 : ('h' :: 't' :: 't' :: 'p' :: c :: []) ≠ ([] : Str) := by simp
  obtain ⟨s, t, hst⟩ := nonspace_infix_collapse l false _ h5 huns hinf
  exact h ((hasUrl_iff_parts l).mpr ⟨s, c, t, by rw [← hst]; simp, hcns⟩)

theorem wsOk_collapseWsAux (l : Str) : ∀ b, wsOk b (collapseWsAux b l) = true := by
  induction l with
  | nil => intro b; rfl
  | cons c cs ih =>
    intro b
    by_cases hsp : isSpace c = true
    · rw [collapseWsAux_cons, hsp]
      simp only [if_true]
      cases b with
      | true => exact ih true
      | false =>
        simp only [Bool.false_eq_true, if_false]
        show wsOk false (' ' :: collapseWsAux true cs) = true
        simp only [wsOk, isSpace]
        simp [ih true]
    · rw [collapseWsAux_cons]
      rw [Bool.not_eq_true] at hsp
      rw [hsp]
      simp only [Bool.false_eq_true, if_false]
      show wsOk b (c :: collapseWsAux false cs) = true
      simp only [wsOk, hsp]
      simp [ih false]

theorem collapseWsAux_eq_self :
    ∀ (l : Str) (b : Bool), wsOk b l = true → collapseWsAux b l = l := by
  intro l
  induction l with
  | nil => intro b _; rfl
  | cons c cs ih =>
    intro b h
    by_cases hsp : isSpace c = true
    · simp only [wsOk, hsp, if_true, Bool.and_eq_true, decide_eq_true_eq,
        Bool.not_eq_true'] at h
      obtain ⟨⟨hc, hb⟩, hcs⟩ := h
      subst hb
      rw [collapseWsAux_cons, hsp]
      simp only [Bool.false_eq_true, if_false, if_true]
      rw [hc, ih true hcs]
    · rw [Bool.not_eq_true] at hsp
      simp only [wsOk, hsp, Bool.false_eq_true, if_false] at h
      rw [collapseWsAux_cons, hsp]
      simp only [Bool.false_eq_true, if_false]
      rw [ih false h]

/-- Claim C10: the text-cleaning function is idempotent: once URL tokens
are removed and whitespace runs are collapsed to single spaces, applying
the cleaning again changes nothing. -/
theorem claim10_clean_text_idempotent (s : Str) :
    clean_text (clean_text s) = clean_text s := by
  unfold clean_text
  have h1 : ¬ HasUrl (removeUrls s) := not_hasUrl_removeUrls s
  have h2 : ¬ HasUrl (collapseWs (removeUrls s)) := not_hasUrl_collapseWs h1
  rw [removeUrls_eq_self h2]
  show collapseWsAux false (collapseWsAux false (removeUrls s)) = _
  exact collapseWsAux_eq_self _ false (wsOk_collapseWsAux _ false)

/-! ## Chunking -/

theorem split_tokens_nil (m : Nat) : split_tokens [] m = [] := by
  unfold split_tokens
  have h : (List.length ([] : List Nat) + m - 1) / m = 0 := by
    cases m with
    | zero => rfl
    | succ k =>
      simp only [List.length_nil, Nat.zero_add, Nat.succ_sub_one]
      exact Nat.div_eq_of_lt (Nat.lt_succ_self k)
  rw [h]
  rfl

theorem range'_shift_map {α : Type} (f : Nat → α) (m : Nat) :
    ∀ (q s : Nat),
      (List.range' (s + m) q m).map f =
        (List.range' s q m).map (fun i => f (i + m)) := by
  intro q
  induction q with
  | zero => intro s; rfl
  | succ q ih =>
    intro s
    rw [List.range'_succ, List.range'_succ]
    simp only [List.map_cons]
    exact congrArg (f (s + m) :: ·) (ih (s + m))

theorem split_tokens_cons (ts : List Nat) (m : Nat) (hm : 0 < m) (hne : ts ≠ []) :
    split_tokens ts m = ts.take m :: split_tokens (ts.drop m) m := by
  unfold split_tokens
  have hlen : 1 ≤ ts.length := by
    cases ts with
    | nil => exact absurd rfl hne
    | cons a as => simp
  have hcount : (ts.length + m - 1) / m = ((ts.drop m).length + m - 1) / m + 1 := by
    rw [List.length_drop]
    have e1 : ts.length + m - 1 = (ts.length - 1) + m := by omega
    rw [e1, Nat.add_div_right _ hm]
    rcases Nat.lt_or_ge ts.length m with hlt | hge
    · have e2 : ts.length - m + m - 1 = m - 1 := by omega
      rw [e2]
      have e3 : (m - 1) / m = 0 := Nat.div_eq_of_lt (by omega)
      have e4 : (ts.length - 1) / m = 0 := Nat.div_eq_of_lt (by omega)
      rw [e3, e4]
    · have e2 : ts.length - m + m - 1 = ts.length - 1 := by omega
      rw [e2]
  rw [hcount, List.range'_succ]
  simp only [List.map_cons, List.drop_zero, Nat.zero_add]
  refine congrArg (ts.take m :: ·) ?_
  have hshift := range'_shift_map (fun i => List.take m (List.drop i ts)) m
    (((List.drop m ts).length + m - 1) / m) 0
  simp only [Nat.zero_add] at hshift
  rw [hshift]
  have hfun : (fun i => List.take m (List.drop (i + m) ts)) =
      (fun i => List.take m (List.drop i (List.drop m ts))) := by
    funext i
    rw [List.drop_drop, Nat.add_comm]
  exact congrArg
    (fun f => List.map f (List.range' 0 (((List.drop m ts).length + m - 1) / m) m))
    hfun

theorem split_tokens_length_le (m : Nat) (hm : 0 < m) :
    ∀ (ts : List Nat), ∀ w ∈ split_tokens ts m, w.length ≤ m := by
  have key : ∀ n (ts : List Nat), ts.length ≤ n →
      ∀ w ∈ split_tokens ts m, w.length ≤ m := by
    intro n
    induction n with
    | zero =>
      intro ts hl w hw
      have hnil : ts = [] := List.eq_nil_of_length_eq_zero (Nat.le_zero.mp hl)
      subst hnil
      rw [split_tokens_nil] at hw
      simp at hw
    | succ n ih =>
      intro ts hl w hw
      rcases eq_or_ne ts [] with rfl | hne
      · rw [split_tokens_nil] at hw
        simp at hw
      · have hpos : 0 < ts.length := List.length_pos.mpr hne
        rw [split_tokens_cons ts m hm hne] at hw
        rcases List.mem_cons.mp hw with rfl | hw'
        · simp [List.length_take]
        · refine ih (ts.drop m) ?_ w hw'
          rw [List.length_drop]
          omega
  intro ts
  exact key ts.length ts (Nat.le_refl _)

theorem split_tokens_flatten (m : Nat) (hm : 0 < m) :
    ∀ ts : List Nat, (split_tokens ts m).flatten = ts := by
  have key : ∀ n (ts : List Nat), ts.length ≤ n →
      (split_tokens ts m).flatten = ts := by
    intro n
    induction n with
    | zero =>
      intro ts hl
      have hnil : ts = [] := List.eq_nil_of_length_eq_zero (Nat.le_zero.mp hl)
      subst hnil
      rw [split_tokens_nil]
      rfl
    | succ n ih =>
      intro ts hl
      rcases eq_or_ne ts [] with rfl | hne
      · rw [split_tokens_nil]
        rfl
      · have hpos : 0 < ts.length := List.length_pos.mpr hne
        rw [split_tokens_cons ts m hm hne]
        rw [List.flatten_cons]
        rw [ih (ts.drop m) (by rw [List.length_drop]; omega)]
        exact List.take_append_drop m ts
  intro ts
  exact key ts.length ts (Nat.le_refl _)

theorem split_tokens_full (m : Nat) (hm : 0 < m) :
    ∀ ts : List Nat, ∀ w ∈ (split_tokens ts m).dropLast, w.length = m := by
  have key : ∀ n (ts : List Nat), ts.length ≤ n →
      ∀ w ∈ (split_tokens ts m).dropLast, w.length = m := by
    intro n
    induction n with
    | zero =>
      intro ts hl w hw
      have hnil : ts = [] := List.eq_nil_of_length_eq_zero (Nat.le_zero.mp hl)
      subst hnil
      rw [split_tokens_nil] at hw
      simp at hw
    | succ n ih =>
      intro ts hl w hw
      rcases eq_or_ne ts [] with rfl | hne
      · rw [split_tokens_nil] at hw
        simp at hw
      · have hpos : 0 < ts.length := List.length_pos.mpr hne
        rw [split_tokens_cons ts m hm hne] at hw
        rcases eq_or_ne (ts.drop m) [] with hnil2 | hne2
        · rw [hnil2, split_tokens_nil] at hw
          simp at hw
        · have hdpos : 0 < (ts.drop m).length := List.length_pos.mpr hne2
          rw [List.length_drop] at hdpos
          have hsne : split_tokens (ts.drop m) m ≠ [] := by
            rw [split_tokens_cons _ m hm hne2]
            simp
          rw [List.dropLast_cons_of_ne_nil hsne] at hw
          rcases List.mem_cons.mp hw with rfl | hw'
          · rw [List.length_take]
            omega
          · refine ih (ts.drop m) ?_ w hw'
            rw [List.length_drop]
            omega
  intro ts
  exact key ts.length ts (Nat.le_refl _)

theorem split_tokens_5000 (ts : List Nat) (h : ts.length = 5000) :
    (split_tokens ts 2000).map List.length = [2000, 2000, 1000] := by
  have h1 : ts ≠ [] := by
    intro e
    rw [e] at h
    simp at h
  rw [split_tokens_cons ts 2000 (by omega) h1]
  have hd1 : (ts.drop 2000).length = 3000 := by rw [List.length_drop, h]
  have h2 : ts.drop 2000 ≠ [] := by
    intro e
    rw [e] at hd1
    simp at hd1
  rw [split_tokens_cons _ 2000 (by omega) h2]
  have hd2 : ((ts.drop 2000).drop 2000).length = 1000 := by rw [List.length_drop, hd1]
  have h3 : (ts.drop 2000).drop 2000 ≠ [] := by
    intro e
    rw [e] at hd2
    simp at hd2
  rw [split_tokens_cons _ 2000 (by omega) h3]
  have hd3 : (((ts.drop 2000).drop 2000).drop 2000).length = 0 := by
    rw [List.length_drop, hd2]
  have h4 : ((ts.drop 2000).drop 2000).drop 2000 = [] :=
    List.eq_nil_of_length_eq_zero hd3
  rw [h4, split_tokens_nil]
  simp [List.length_take, hd1, hd2, h]

/-- Claim C2: for every text and positive bound, `split_text_into_chunks`
slices the token sequence into contiguous non-overlapping windows of at
most `max_tokens` tokens: every window has at most `max_tokens` tokens,
every window but possibly the last has exactly `max_tokens` tokens, the
windows reassemble the token sequence, the returned chunks are exactly the
decoded windows, and a 5000-token text with bound 2000 yields exactly the
window lengths [2000, 2000, 1000]. -/
theorem claim2_chunk_windows (enc : Str → List Nat) (dec : List Nat → Str)
    (text : Str) (m : Nat) (hm : 0 < m) :
    (∀ w ∈ split_tokens (enc text) m, w.length ≤ m) ∧
    (∀ w ∈ (split_tokens (enc text) m).dropLast, w.length = m) ∧
    ((split_tokens (enc text) m).flatten = enc text) ∧
    (split_text_into_chunks enc dec text m = (split_tokens (enc text) m).map dec) ∧
    ((enc text).length = 5000 → m = 2000 →
      (split_tokens (enc text) m).map List.length = [2000, 2000, 1000]) := by
  refine ⟨split_tokens_length_le m hm _, split_tokens_full m hm _,
    split_tokens_flatten m hm _, rfl, ?_⟩
  rintro h5 rfl
  exact split_tokens_5000 _ h5

theorem claim2_witness :
    ((split_tokens (List.range 5000) 2000).map List.length = [2000, 2000, 1000]) ∧
    (∀ w ∈ split_tokens (List.range 5000) 2000, w.length ≤ 2000) := by
  have h := claim2_chunk_windows (fun _ => List.range 5000) (fun _ => ([] : Str))
    [] 2000 (by decide)
  exact ⟨h.2.2.2.2 (by simp) rfl, h.1⟩

theorem decodeTok_flatten (tok : Nat → Str) :
    ∀ L : List (List Nat),
      (L.map (decodeTok tok)).flatten = decodeTok tok L.flatten := by
  intro L
  induction L with
  | nil => rfl
  | cons w L ih =>
    simp only [List.map_cons, List.flatten_cons, ih, decodeTok, List.map_append,
      List.flatten_append]

/-- Claim C3: for every non-empty text and positive bound, concatenating
the chunks returned by `split_text_into_chunks` reassembles the decoding
of the full token sequence (round trip modulo tokenizer normalization,
decoding modelled as per-token concatenation). -/
theorem claim3_chunk_roundtrip (tok : Nat → Str) (enc : Str → List Nat)
    (text : Str) (m : Nat) (ht : text ≠ []) (hm : 0 < m) :
    (split_text_into_chunks enc (decodeTok tok) text m).flatten =
      decodeTok tok (enc text) := by
  unfold split_text_into_chunks
  rw [decodeTok_flatten tok (split_tokens (enc text) m)]
  rw [split_tokens_flatten m hm]

theorem claim3_witness :
    (split_text_into_chunks (fun _ => [10, 20, 30]) (decodeTok (fun n => natStr n))
        (str "x") 2).flatten =
      decodeTok (fun n => natStr n) [10, 20, 30] := by
  exact claim3_chunk_roundtrip (fun n => natStr n) (fun _ => [10, 20, 30])
    (str "x") 2 (by decide) (by decide)

/-! ## The orchestration loop -/

theorem concatAll_cons (x : Str) (l : List Str) :
    concatAll (x :: l) = x ++ concatAll l := rfl

theorem concatAll_append (A B : List Str) :
    concatAll (A ++ B) = concatAll A ++ concatAll B := by
  induction A with
  | nil => rfl
  | cons x xs ih =>
    rw [List.cons_append, concatAll_cons, concatAll_cons, ih, List.append_assoc]

theorem chunkLoop_ctx (env : Env) :
    ∀ (l : List Str) (ctx tut : Str),
      (chunkLoop env ctx tut l).1 =
        ctx ++ concatAll (l.map (fun c => (str "\n") ++ c)) := by
  intro l
  induction l with
  | nil =>
    intro ctx tut
    show ctx = ctx ++ concatAll []
    rw [show concatAll [] = [] from rfl, List.append_nil]
  | cons c cs ih =>
    intro ctx tut
    show (chunkLoop env (ctx ++ (str "\n") ++ c) _ cs).1 = _
    rw [ih]
    simp [concatAll_cons, List.append_assoc]

/-- Counterexample to claim C5 as stated: after processing the single
chunk `a` the accumulated context is `"\na"`, not the concatenation `"a"`
of the chunks processed so far — the loop prepends a newline to every
chunk. -/
theorem claim5_counterexample :
    (chunkLoop okEnv [] [] [str "a"]).1 ≠ concatAll [str "a"] ∧
    (chunkLoop okEnv [] [] [str "a"]).1 = str "\na" := by
  constructor
  · decide
  · decide

/-- Claim C5 (amended): the accumulated context only ever grows — after
each iteration the previous value is a prefix of the new one — and after
the first `k` chunks it equals the concatenation of the newline-prefixed
chunks `"\n" ++ chunk_1, …, "\n" ++ chunk_k` (not the bare chunks). -/
theorem claim5_accumulated_context (env : Env) (chunks : List Str) (k : Nat) :
    (chunkLoop env [] [] (chunks.take k)).1 =
      concatAll ((chunks.take k).map (fun c => (str "\n") ++ c)) ∧
    ∃ t, (chunkLoop env [] [] (chunks.take k)).1 ++ t =
      (chunkLoop env [] [] (chunks.take (k + 1))).1 := by
  constructor
  · rw [chunkLoop_ctx env (chunks.take k) [] []]
    rw [List.nil_append]
  · refine ⟨concatAll ((chunks[k]?.toList).map (fun c => (str "\n") ++ c)), ?_⟩
    rw [chunkLoop_ctx env (chunks.take k) [] [],
      chunkLoop_ctx env (chunks.take (k + 1)) [] []]
    rw [List.take_succ, List.map_append, concatAll_append]
    rw [List.nil_append, List.nil_append]

theorem chunkLoop_tut (env : Env) :
    ∀ (l : List Str) (ctx tut : Str),
      (chunkLoop env ctx tut l).2 =
        ((tut :: tutorialOutputs env ctx l).filter
            (fun s => decide (s ≠ []))).getLastD [] := by
  intro l
  induction l with
  | nil =>
    intro ctx tut
    show tut = _
    by_cases h : tut = []
    · subst h
      simp [tutorialOutputs]
    · simp [tutorialOutputs, h]
  | cons c cs ih =>
    intro ctx tut
    have step : chunkLoop env ctx tut (c :: cs) =
        chunkLoop env (ctx ++ (str "\n") ++ c)
          (if generate_or_update_tutorial env (ctx ++ (str "\n") ++ c) = []
            then tut else generate_or_update_tutorial env (ctx ++ (str "\n") ++ c))
          cs := rfl
    have stepo : tutorialOutputs env ctx (c :: cs) =
        generate_or_update_tutorial env (ctx ++ (str "\n") ++ c)
          :: tutorialOutputs env (ctx ++ (str "\n") ++ c) cs := rfl
    rw [step, stepo, ih]
    generalize tutorialOutputs env (ctx ++ (str "\n") ++ c) cs = outs
    generalize generate_or_update_tutorial env (ctx ++ (str "\n") ++ c) = g
    by_cases hoe : g = []
    · rw [if_pos hoe, hoe]
      simp [List.filter_cons]
    · rw [if_neg hoe]
      by_cases hPt : tut = []
      · simp [List.filter_cons, hPt, hoe]
      · simp [List.filter_cons, hPt, hoe, List.getLastD_cons]

set_option maxRecDepth 100000 in
/-- Counterexample to claim C6 as stated: with chunks `c1, c2`, a model
that answers `A` on the first context and succeeds with the empty string
on the second, both calls succeed, yet the final tutorial text is `A`, not
the output of the last successful call (the empty string): the loop's
`if tutorial:` truthiness test skips replacement on an empty successful
output. -/
theorem claim6_counterexample :
    emptyAnswerEnv.apiResult
        (tutorial_prompt (str "\nc1\nc2")) = .ok ([] : Str) ∧
    generate_or_update_tutorial emptyAnswerEnv (str "\nc1\nc2") = [] ∧
    (chunkLoop emptyAnswerEnv [] [] [str "c1", str "c2"]).2 = str "A" ∧
    str "A" ≠ ([] : Str) := by
  refine ⟨by decide, by decide, by decide, by decide⟩

/-- Claim C6 (amended): an iteration replaces the tutorial text exactly
when its model call succeeds with a nonempty output; a failed call yields
the empty sentinel and leaves the text unchanged, as does a successful
call returning the empty string.  Hence after the loop the tutorial text
is the last nonempty value among the initial text and the per-iteration
outputs (empty if there is none). -/
theorem claim6_tutorial_loop :
    (∀ (env : Env) (ctx e : Str),
      env.apiResult (tutorial_prompt ctx) = .error e →
        generate_or_update_tutorial env ctx = []) ∧
    (∀ (env : Env) (chunks : List Str) (ctx tut : Str),
      (chunkLoop env ctx tut chunks).2 =
        ((tut :: tutorialOutputs env ctx chunks).filter
            (fun s => decide (s ≠ []))).getLastD []) := by
  constructor
  · intro env ctx e h
    unfold generate_or_update_tutorial
    rw [h]
  · intro env chunks ctx tut
    exact chunkLoop_tut env chunks ctx tut

theorem claim6_witness :
    generate_or_update_tutorial apiFailEnv (str "x") = [] ∧
    (chunkLoop apiFailEnv [] [] [str "c"]).2 =
      ((([] : Str) :: tutorialOutputs apiFailEnv [] [str "c"]).filter
          (fun s => decide (s ≠ []))).getLastD [] := by
  exact ⟨claim6_tutorial_loop.1 apiFailEnv (str "x") (str "boom") rfl,
    claim6_tutorial_loop.2 apiFailEnv [str "c"] [] []⟩

/-! ## Image extraction -/

/-- Claim C1: the record list returned by image extraction is ordered
non-decreasing lexicographically by (page index, vertical position): each
adjacent pair satisfies `lexLe`, and the projected output preserves that
order; in particular two images on the same page at y = 100 and y = 50
come out as [y = 50 image, y = 100 image]. -/
theorem claim1_image_order :
    (∀ (env : Env) (doc : Doc) (folder ctx : Str) (tmp : List TempInfo),
      extractTemp env doc folder ctx = .ok tmp →
        List.Chain' lexLe tmp ∧
        extract_images_from_pdf env doc folder ctx = .ok (tmp.map finalOf)) ∧
    extract_images_from_pdf okEnv exDoc (str "imagens_extraidas") [] =
      .ok [{ image_name := str "image_1_2.png", description := str "d" },
           { image_name := str "image_1_1.png", description := str "d" }] := by
  constructor
  · intro env doc folder ctx tmp h
    constructor
    · unfold extractTemp at h
      cases hE : extractPages env doc folder ctx 0 doc.pages with
      | error e =>
        rw [hE] at h
        cases h
      | ok raw =>
        rw [hE] at h
        injection h with h
        rw [← h]
        exact (List.sorted_insertionSort lexLe raw).chain'
    · unfold extract_images_from_pdf
      rw [h]
  · decide

theorem claim1_witness :
    List.Chain' lexLe
      [{ image_name := str "image_1_2.png", description := str "d",
         page := 0, rect := some 50, y_pos := 50 },
       { image_name := str "image_1_1.png", description := str "d",
         page := 0, rect := some 100, y_pos := 100 }] ∧
    extract_images_from_pdf okEnv exDoc (str "imagens_extraidas") [] =
      .ok (([{ image_name := str "image_1_2.png", description := str "d",
               page := 0, rect := some 50, y_pos := 50 },
             { image_name := str "image_1_1.png", description := str "d",
               page := 0, rect := some 100, y_pos := 100 }] :
              List TempInfo).map finalOf) := by
  exact claim1_image_order.1 okEnv exDoc (str "imagens_extraidas") [] _ (by decide)

/-- Claim C4: when the chat-completions call for an image raises, the
description is the fixed API sentinel instead of a propagated error, and
the image still appears in the extraction result as a record carrying
that sentinel. -/
theorem claim4_sentinel_on_api_failure :
    (∀ (env : Env) (path ctx : Str) (b : List Nat) (e : Str),
      env.readResult path = .ok b →
      env.apiResult (imagePrompt path ctx) = .error e →
      get_image_description env path ctx = apiSentinel) ∧
    extract_images_from_pdf apiFailEnv oneImgDoc (str "imagens_extraidas") [] =
      .ok [{ image_name := str "image_1_1.png", description := apiSentinel }] := by
  constructor
  · intro env path ctx b e hr ha
    unfold get_image_description
    rw [hr, ha]
  · decide

theorem claim4_witness :
    get_image_description apiFailEnv (str "p") (str "c") = apiSentinel :=
  claim4_sentinel_on_api_failure.1 apiFailEnv (str "p") (str "c") [0]
    (str "boom") rfl rfl

/-- Counterexample to claim C7 as stated: in a document whose first image
raises inside `doc.extract_image` (the first loop, outside the `try`
block) while its second image is fine, the whole extraction propagates the
error instead of skipping the one image and continuing. -/
theorem claim7_counterexample :
    extract_images_from_pdf okEnv raiseDoc (str "imagens_extraidas") [] =
      .error (str "bad xref") := by
  decide

/-- Claim C7 (amended): an error raised while processing a single image
inside the per-image `try` block (saving the file — the modelled failure
point — with position lookup and description below it) is caught and
causes only that image to be skipped, the remaining images being processed
as if it were absent; an image whose raw extraction yields no data is
likewise skipped.  An exception raised by `doc.extract_image` itself,
however, is outside the `try` block and propagates (see the
counterexample). -/
theorem claim7_skip_on_save_error :
    (∀ (env : Env) (folder : Str) (p : Page) (pageNum : Nat) (ctx : Str)
       (i : Nat) (d : PageImgData) (ds : List PageImgData) (e : Str),
      env.saveResult (os_path_join folder (imageName pageNum i d.ext)) =
          .error e →
        processPageImages env folder p pageNum ctx i (d :: ds) =
          processPageImages env folder p pageNum ctx (i + 1) ds) ∧
    extract_images_from_pdf saveFailEnv exDoc (str "imagens_extraidas") [] =
      .ok [{ image_name := str "image_1_2.png", description := str "d" }] := by
  constructor
  · intro env folder p pageNum ctx i d ds e h
    have hpi : processImage env folder p pageNum i d ctx = none := by
      unfold processImage
      rw [h]
    simp only [processPageImages, hpi]
  · decide

theorem claim7_witness :
    processPageImages saveFailEnv (str "imagens_extraidas")
        { images := [1, 2], info := [{ xrefOpt := some 1, y0 := 100 },
                                     { xrefOpt := some 2, y0 := 50 }] }
        0 [] 0
        [{ xref := 1, image := [1], ext := str "png" },
         { xref := 2, image := [2], ext := str "png" }] =
      processPageImages saveFailEnv (str "imagens_extraidas")
        { images := [1, 2], info := [{ xrefOpt := some 1, y0 := 100 },
                                     { xrefOpt := some 2, y0 := 50 }] }
        0 [] 1
        [{ xref := 2, image := [2], ext := str "png" }] := by
  exact claim7_skip_on_save_error.1 saveFailEnv (str "imagens_extraidas") _ 0 [] 0
    _ _ (str "disk full") (by decide)

/-- Claim C8: resolving an image's position matches the image's xref
against the page's image-placement metadata; with no matching entry the
vertical position used for ordering defaults to 0, and with a match it is
the top coordinate `y0` of the first matching entry's bounding box. -/
theorem claim8_rect_default :
    (∀ (info : List InfoItem) (xref : Nat),
      (∀ it ∈ info, ∀ x, it.xrefOpt = some x → x ≠ xref) →
        findRect info xref = none) ∧
    (∀ (info : List InfoItem) (xref : Nat) (y : Int),
      findRect info xref = some y →
        ∃ it ∈ info, it.xrefOpt = some xref ∧ it.y0 = y) ∧
    (∀ (env : Env) (folder : Str) (p : Page) (pageNum imgIndex : Nat)
       (d : PageImgData) (ctx : Str),
      env.saveResult (os_path_join folder (imageName pageNum imgIndex d.ext)) =
          .ok () →
        ∃ t, processImage env folder p pageNum imgIndex d ctx = some t ∧
          t.y_pos = (findRect p.info d.xref).getD 0) := by
  refine ⟨?_, ?_, ?_⟩
  · intro info xref h
    induction info with
    | nil => rfl
    | cons it rest ih =>
      cases hx : it.xrefOpt with
      | none =>
        simp only [findRect, hx]
        exact ih (fun i hi => h i (List.mem_cons_of_mem _ hi))
      | some x =>
        have hne : x ≠ xref := h it (List.mem_cons_self _ _) x hx
        simp only [findRect, hx, if_neg hne]
        exact ih (fun i hi => h i (List.mem_cons_of_mem _ hi))
  · intro info xref y h
    induction info with
    | nil => cases h
    | cons it rest ih =>
      rw [show findRect (it :: rest) xref =
          (match it.xrefOpt with
           | some x => if x = xref then some it.y0 else findRect rest xref
           | none => findRect rest xref) from rfl] at h
      cases hx : it.xrefOpt with
      | none =>
        rw [hx] at h
        obtain ⟨i, hi, hix, hiy⟩ := ih h
        exact ⟨i, List.mem_cons_of_mem _ hi, hix, hiy⟩
      | some x =>
        rw [hx] at h
        simp only [] at h
        by_cases hxe : x = xref
        · rw [if_pos hxe] at h
          injection h with h
          exact ⟨it, List.mem_cons_self _ _, by rw [hx, hxe], h⟩
        · rw [if_neg hxe] at h
          obtain ⟨i, hi, hix, hiy⟩ := ih h
          exact ⟨i, List.mem_cons_of_mem _ hi, hix, hiy⟩
  · intro env folder p pageNum imgIndex d ctx h
    unfold processImage
    rw [h]
    exact ⟨_, rfl, rfl⟩

theorem claim8_witness :
    findRect [] 5 = none ∧
    (∃ it ∈ [({ xrefOpt := some 5, y0 := 42 } : InfoItem)],
      it.xrefOpt = some 5 ∧ it.y0 = 42) ∧
    (∃ t, processImage okEnv (str "f") { images := [], info := [] } 0 0
        { xref := 9, image := [], ext := str "png" } [] = some t ∧
      t.y_pos = ((findRect ({ images := [], info := [] } : Page).info 9).getD 0)) := by
  refine ⟨claim8_rect_default.1 [] 5 (by simp),
    claim8_rect_default.2.1 [{ xrefOpt := some 5, y0 := 42 }] 5 42 (by decide),
    claim8_rect_default.2.2 okEnv (str "f") { images := [], info := [] } 0 0
      { xref := 9, image := [], ext := str "png" } [] rfl⟩

/-- Counterexample to claim C9 as stated: the only image of the example
document produces a record whose 0-based page index is 0 and whose index
among the page's images is 0, yet the recorded (and saved) file name is
`image_1_1.png`, not the `image_0_0.png` that the claim's 0-based naming
formula gives. -/
theorem claim9_counterexample :
    extractTemp okEnv oneImgDoc (str "imagens_extraidas") [] =
      .ok [{ image_name := str "image_1_1.png", description := str "d",
             page := 0, rect := some 3, y_pos := 3 }] ∧
    (str "image_1_1.png") ≠
      (str "image_") ++ natStr 0 ++ (str "_") ++ natStr 0 ++ (str ".")
        ++ (str "png") := by
  exact ⟨by decide, by decide⟩

/-- Claim C9 (amended): for every successfully processed image the
recorded `image_name` (also used for the saved file's path) is
`image_{page+1}_{index+1}.{ext}` — the 1-based page number and the 1-based
index among the page's images — while the record's `page` field stays the
0-based page index. -/
theorem claim9_image_name :
    ∀ (env : Env) (folder : Str) (p : Page) (pageNum imgIndex : Nat)
      (d : PageImgData) (ctx : Str) (t : TempInfo),
      processImage env folder p pageNum imgIndex d ctx = some t →
        t.image_name = (str "image_") ++ natStr (pageNum + 1) ++ (str "_")
            ++ natStr (imgIndex + 1) ++ (str ".") ++ d.ext ∧
        t.page = pageNum := by
  intro env folder p pageNum imgIndex d ctx t h
  unfold processImage at h
  cases hs : env.saveResult (os_path_join folder (imageName pageNum imgIndex d.ext)) with
  | error e =>
    rw [hs] at h
    cases h
  | ok u =>
    rw [hs] at h
    injection h with h
    rw [← h]
    exact ⟨rfl, rfl⟩

theorem claim9_witness :
    ({ image_name := str "image_1_1.png", description := str "d",
       page := 0, rect := some 3, y_pos := 3 } : TempInfo).image_name =
      (str "image_") ++ natStr (0 + 1) ++ (str "_") ++ natStr (0 + 1)
        ++ (str ".") ++ (str "png") ∧
    ({ image_name := str "image_1_1.png", description := str "d",
       page := 0, rect := some 3, y_pos := 3 } : TempInfo).page = 0 := by
  exact claim9_image_name okEnv (str "imagens_extraidas")
    { images := [7], info := [{ xrefOpt := some 7, y0 := 3 }] } 0 0
    { xref := 7, image := [7], ext := str "png" } []
    { image_name := str "image_1_1.png", description := str "d",
      page := 0, rect := some 3, y_pos := 3 } (by decide)
